import Mathlib

/-!
Shallow embedding of the paginated Athena query-result collector
(src/index.ts of the repository).  The external pager is modelled by the
list of pages it would return on successive fetch calls; machine-level
`number` arithmetic that can matter (the `maxRows - rows.length`
subtraction fed to `Array.prototype.slice`) is modelled over `Int` with
JavaScript slice semantics.  Callbacks that may throw are modelled as
functions into `Except`; each consumption loop additionally returns an
instrumentation trace (callback invocations) and the number of page
fetches it performed.
-/

namespace Collector

variable {T E P : Type}

/-- One fetched page: the parsed rows plus the optional continuation token
(the `PageResult` shape consumed by src/index.ts). -/
structure PageResult (T : Type) where
  rows : List T
  nextToken : Option String
deriving Repr, DecidableEq

/-- Result of bulk collection (`CollectResult` in src/index.ts). -/
structure CollectResult (T : Type) where
  rows : List T
  totalRows : Nat
  pageCount : Nat
  truncated : Bool
deriving Repr, DecidableEq

/-- Result of batch processing: the `{ totalRows, pageCount }` object
returned by `processBatches`. -/
structure BatchResult where
  totalRows : Nat
  pageCount : Nat
deriving Repr, DecidableEq

/-- Instrumented outcome of a `collectWith` run: the returned value (or the
propagated callback error), the list of `onPage` invocations `(page,
totalCollected)` in order, and the number of page fetches performed. -/
structure CollectOut (T E : Type) where
  result : Except E (CollectResult T)
  trace : List (PageResult T × Nat)
  fetches : Nat
deriving Repr

/-- Instrumented outcome of a `processBatches` run: the returned value (or
the propagated `batchProcessor` error), the list of `batchProcessor`
invocations `(rows, pageIndex)` in order, and the number of page fetches
performed. -/
structure BatchOut (T E : Type) where
  result : Except E BatchResult
  trace : List (List T × Nat)
  fetches : Nat
deriving Repr

/-- JavaScript truthiness of the loop condition `while (nextToken)`
(src/index.ts line 106): an absent token and the empty string are both
falsy. -/
def tokenContinues : Option String → Bool
  | none => false
  | some t => decide (t ≠ "")

/-- JavaScript `array.slice(0, e)`: a negative end index counts from the
end of the array and the result is clamped to the array bounds. -/
def jsSliceTo (l : List T) (e : Int) : List T :=
  if e < 0 then l.take ((l.length : Int) + e).toNat else l.take e.toNat

/-- The attempt loop of `fetchPageWithRetry` (src/index.ts lines 194-213).
`f i` is the outcome of the pager's `i`-th fetch invocation; the argument
being recursed on is the number of attempts still allowed after the
current one (`retryCount - attempt`).  Returns the final outcome together
with the number of fetch invocations performed. -/
def retryGo (f : Nat → Except E P) (i : Nat) : Nat → Except E P × Nat
  | 0 => (f i, 1)
  | n + 1 =>
    match f i with
    | .ok p => (.ok p, 1)
    | .error _ =>
      let o := retryGo f (i + 1) n
      (o.1, o.2 + 1)

/-- `fetchPageWithRetry` (src/index.ts lines 194-213): attempts
`retryCount + 1` fetches at most, returns the first success, and
otherwise the most recent error. -/
def fetchPageWithRetry (retryCount : Nat) (f : Nat → Except E P) :
    Except E P × Nat :=
  retryGo f 0 retryCount

/-- The do/while loop of `collectWith` (src/index.ts lines 79-106) over the
sequence of pages the pager returns on successive fetches.  `rows`, `pc`
(pageCount) are the loop's mutable locals; `tr` and `fe` instrument the
`onPage` invocations and the fetch count.  `none` means the loop asked the
pager for a page beyond the supplied sequence. -/
def collectGo (mR : Option Nat) (cb? : Option (PageResult T → Nat → Except E Unit)) :
    List T → Nat → List (PageResult T × Nat) → Nat → List (PageResult T) →
    Option (CollectOut T E)
  | _, _, _, _, [] => none
  | rows, pc, tr, fe, page :: rest =>
    -- maxRows check: on `page.rows.length >= maxRows - rows.length` the loop
    -- pushes `page.rows.slice(0, remaining)` and breaks out (lines 88-96)
    let truncOut : Option (CollectOut T E) :=
      match mR with
      | some m =>
        if (m : Int) - (rows.length : Int) ≤ (page.rows.length : Int) then
          let rows' := rows ++ jsSliceTo page.rows ((m : Int) - (rows.length : Int))
          some ⟨.ok ⟨rows', rows'.length, pc + 1, true⟩, tr, fe + 1⟩
        else none
      | none => none
    match truncOut with
    | some out => some out
    | none =>
      let rows' := rows ++ page.rows
      let tr' := match cb? with
        | some _ => tr ++ [(page, rows'.length)]
        | none => tr
      let cbRes : Except E Unit := match cb? with
        | some cb => cb page rows'.length
        | none => .ok ()
      match cbRes with
      | .error e => some ⟨.error e, tr', fe + 1⟩
      | .ok _ =>
        if tokenContinues page.nextToken then
          collectGo mR cb? rows' (pc + 1) tr' (fe + 1) rest
        else
          some ⟨.ok ⟨rows', rows'.length, pc + 1, false⟩, tr', fe + 1⟩

/-- `collectWith` (src/index.ts lines 67-114): run the collection loop from
the initial state (`rows = []`, `pageCount = 0`). -/
def collectWith (mR : Option Nat) (cb? : Option (PageResult T → Nat → Except E Unit))
    (pages : List (PageResult T)) : Option (CollectOut T E) :=
  collectGo mR cb? [] 0 [] 0 pages

/-- `collect` (src/index.ts lines 57-59) delegates to `collectWith` with the
identity row parser; row parsing happens inside the external pager and is
not observable here, so the two coincide in the model. -/
def collect (mR : Option Nat) (cb? : Option (PageResult T → Nat → Except E Unit))
    (pages : List (PageResult T)) : Option (CollectOut T E) :=
  collectWith mR cb? pages

/-- The `for (const row of page.rows)` body of `stream` (src/index.ts lines
137-144): yields rows until the running count reaches `maxRows`.  Returns
the yielded rows, the updated count, and whether the generator executed
`return` (terminated mid-page). -/
def streamRows (mR : Option Nat) : Nat → List T → List T × Nat × Bool
  | count, [] => ([], count, false)
  | count, r :: rs =>
    let stop : Bool := match mR with
      | some m => decide (count ≥ m)
      | none => false
    if stop then ([], count, true)
    else
      let o := streamRows mR (count + 1) rs
      (r :: o.1, o.2)

/-- The do/while loop of `stream` (src/index.ts lines 121-148).  Returns the
full sequence of yielded rows together with the number of page fetches
performed; `none` means the loop asked the pager for a page beyond the
supplied sequence. -/
def streamGo (mR : Option Nat) : Nat → Nat → List (PageResult T) → Option (List T × Nat)
  | _, _, [] => none
  | count, fe, page :: rest =>
    let o := streamRows mR count page.rows
    if o.2.2 then some (o.1, fe + 1)
    else if tokenContinues page.nextToken then
      match streamGo mR o.2.1 (fe + 1) rest with
      | none => none
      | some (ys, fc) => some (o.1 ++ ys, fc)
    else some (o.1, fe + 1)

/-- `stream` (src/index.ts lines 121-148) from the initial state. -/
def stream (mR : Option Nat) (pages : List (PageResult T)) : Option (List T × Nat) :=
  streamGo mR 0 0 pages

/-- The do/while loop of `processBatches` (src/index.ts lines 168-186).
`pc` and `total` are the loop's mutable locals; `tr` records the
`batchProcessor` invocations `(page.rows, pageIndex)` and `fe` the fetch
count. -/
def processGo (mR : Option Nat) (bp : List T → Nat → Except E Unit) :
    Nat → Nat → List (List T × Nat) → Nat → List (PageResult T) →
    Option (BatchOut T E)
  | _, _, _, _, [] => none
  | pc, total, tr, fe, page :: rest =>
    let tr' := tr ++ [(page.rows, pc)]
    match bp page.rows pc with
    | .error e => some ⟨.error e, tr', fe + 1⟩
    | .ok _ =>
      let pc' := pc + 1
      let total' := total + page.rows.length
      -- maxRows check (lines 181-183): performed after the callback ran
      let stop : Bool := match mR with
        | some m => decide (total' ≥ m)
        | none => false
      if stop then some ⟨.ok ⟨total', pc'⟩, tr', fe + 1⟩
      else if tokenContinues page.nextToken then
        processGo mR bp pc' total' tr' (fe + 1) rest
      else some ⟨.ok ⟨total', pc'⟩, tr', fe + 1⟩

/-- `processBatches` (src/index.ts lines 156-189) from the initial state. -/
def processBatches (mR : Option Nat) (bp : List T → Nat → Except E Unit)
    (pages : List (PageResult T)) : Option (BatchOut T E) :=
  processGo mR bp 0 0 [] 0 pages

/-! Specification-side functions, written from the spec's description of the
loop (termination on a falsy token, truncation at the row limit), used to
state what the loops compute. -/

/-- The pages a run without row limit fetches: the page sequence up to and
including the first page whose continuation token does not continue the
loop. -/
def naturalPages : List (PageResult T) → List (PageResult T)
  | [] => []
  | p :: rest =>
    if tokenContinues p.nextToken then p :: naturalPages rest else [p]

/-- All rows available before natural termination, in fetch order. -/
def natRows (pages : List (PageResult T)) : List T :=
  ((naturalPages pages).map (fun p => p.rows)).flatten

/-- Total number of rows on a list of pages. -/
def sumLens (pages : List (PageResult T)) : Nat :=
  (pages.map (fun p => p.rows.length)).sum

/-- Well-formed pager script: nonempty, and its last page does not ask for a
further fetch (otherwise the loop would fetch beyond the sequence). -/
def wfPages : List (PageResult T) → Bool
  | [] => false
  | [p] => !tokenContinues p.nextToken
  | _ :: p :: rest => wfPages (p :: rest)

/-- Number of pages `collectWith` fetches under row limit `m` when `c` rows
have been collected so far. -/
def limitPages (m : Nat) : Nat → List (PageResult T) → Nat
  | _, [] => 0
  | c, p :: rest =>
    if m - c ≤ p.rows.length then 1
    else if tokenContinues p.nextToken then 1 + limitPages m (c + p.rows.length) rest
    else 1

/-- Whether `collectWith` under row limit `m` hits the limit (sets
`truncated`) when `c` rows have been collected so far. -/
def limitTrunc (m : Nat) : Nat → List (PageResult T) → Bool
  | _, [] => false
  | c, p :: rest =>
    if m - c ≤ p.rows.length then true
    else if tokenContinues p.nextToken then limitTrunc m (c + p.rows.length) rest
    else false

/-- The `onPage` invocations a `collectWith` run performs: one per fully
appended page, paired with the cumulative row count, and none for the page
on which truncation occurs. -/
def appendedTrace (mR : Option Nat) : Nat → List (PageResult T) → List (PageResult T × Nat)
  | _, [] => []
  | c, p :: rest =>
    let trunc : Bool := match mR with
      | some m => decide (m - c ≤ p.rows.length)
      | none => false
    if trunc then []
    else
      (p, c + p.rows.length) ::
        (if tokenContinues p.nextToken then appendedTrace mR (c + p.rows.length) rest else [])

/-- Number of pages `stream` fetches under row limit `m` when `c` rows have
been yielded so far: the generator only stops mid-page once the count has
reached the limit with a further row present. -/
def streamFetches (m : Nat) : Nat → List (PageResult T) → Nat
  | _, [] => 0
  | c, p :: rest =>
    if m < c + p.rows.length then 1
    else if tokenContinues p.nextToken then 1 + streamFetches m (c + p.rows.length) rest
    else 1

/-- Number of pages `processBatches` delivers to the callback: the limit is
checked only after a full page has been delivered and counted. -/
def batchN (mR : Option Nat) : Nat → List (PageResult T) → Nat
  | _, [] => 0
  | total, p :: rest =>
    let total' := total + p.rows.length
    let stop : Bool := match mR with
      | some m => decide (m ≤ total')
      | none => false
    if stop then 1
    else if tokenContinues p.nextToken then 1 + batchN mR total' rest
    else 1

/-- The configured callback (if any) always succeeds. -/
def cbOk (cb? : Option (PageResult T → Nat → Except E Unit)) : Prop :=
  ∀ cb p n, cb? = some cb → cb p n = Except.ok ()

/-- The trace a `collectWith` run leaves behind: empty when no callback is
configured, the `appendedTrace` otherwise. -/
def traceFor (cb? : Option (PageResult T → Nat → Except E Unit)) (mR : Option Nat)
    (c : Nat) (pages : List (PageResult T)) : List (PageResult T × Nat) :=
  match cb? with
  | some _ => appendedTrace mR c pages
  | none => []

/-! ### Basic lemmas -/

theorem wfPages_tail {p : PageResult T} {rest : List (PageResult T)}
    (hwf : wfPages (p :: rest) = true) (htok : tokenContinues p.nextToken = true) :
    wfPages rest = true := by
  cases rest with
  | nil => simp [wfPages, htok] at hwf
  | cons q rest' => simpa [wfPages] using hwf

theorem jsSliceTo_of_nonneg (l : List T) (e : Int) (h : 0 ≤ e) :
    jsSliceTo l e = l.take e.toNat := by
  simp [jsSliceTo, not_lt.mpr h]

theorem streamRows_none (c : Nat) (rows : List T) :
    streamRows none c rows = (rows, c + rows.length, false) := by
  induction rows generalizing c with
  | nil => simp [streamRows]
  | cons r rs ih =>
    simp [streamRows, ih]
    omega

theorem streamRows_some (m : Nat) (rows : List T) :
    ∀ c, c ≤ m →
      streamRows (some m) c rows =
        (rows.take (m - c), min (c + rows.length) m, decide (m < c + rows.length)) := by
  induction rows with
  | nil =>
    intro c hc
    simp [streamRows]
    omega
  | cons r rs ih =>
    intro c hc
    by_cases hcm : c < m
    · have hnot : ¬ (c ≥ m) := by omega
      have htake : (r :: rs).take (m - c) = r :: rs.take (m - (c + 1)) := by
        have : m - c = (m - (c + 1)) + 1 := by omega
        simp [this]
      simp [streamRows, hnot, ih (c + 1) (by omega), htake]
      all_goals omega
    · have hce : c = m := by omega
      subst hce
      simp [streamRows]

theorem naturalPages_cons_true {p : PageResult T} {rest : List (PageResult T)}
    (htok : tokenContinues p.nextToken = true) :
    naturalPages (p :: rest) = p :: naturalPages rest := by
  simp [naturalPages, htok]

theorem naturalPages_cons_false {p : PageResult T} {rest : List (PageResult T)}
    (htok : tokenContinues p.nextToken = false) :
    naturalPages (p :: rest) = [p] := by
  simp [naturalPages, htok]

theorem natRows_cons_true {p : PageResult T} {rest : List (PageResult T)}
    (htok : tokenContinues p.nextToken = true) :
    natRows (p :: rest) = p.rows ++ natRows rest := by
  simp [natRows, naturalPages_cons_true htok]

theorem natRows_cons_false {p : PageResult T} {rest : List (PageResult T)}
    (htok : tokenContinues p.nextToken = false) :
    natRows (p :: rest) = p.rows := by
  simp [natRows, naturalPages_cons_false htok]

/-- Complete description of the `collectWith` loop without a row limit: it
appends every page's rows up to natural termination, counts the fetched
pages, never truncates, and invokes the callback (when configured) once
per page. -/
theorem collectGo_none_char (cb? : Option (PageResult T → Nat → Except E Unit))
    (hcb : cbOk cb?) :
    ∀ pages : List (PageResult T), wfPages pages = true →
      ∀ (rows : List T) (pc : Nat) (tr : List (PageResult T × Nat)) (fe : Nat),
        collectGo none cb? rows pc tr fe pages =
          some ⟨.ok ⟨rows ++ natRows pages, (rows ++ natRows pages).length,
                     pc + (naturalPages pages).length, false⟩,
                tr ++ traceFor cb? none rows.length pages,
                fe + (naturalPages pages).length⟩ := by
  intro pages
  induction pages with
  | nil => intro hwf; simp [wfPages] at hwf
  | cons p rest ih =>
    intro hwf rows pc tr fe
    cases hc : cb? with
    | none =>
      cases htok : tokenContinues p.nextToken with
      | false =>
        simp [collectGo, htok, naturalPages_cons_false htok, natRows_cons_false htok,
          traceFor]
      | true =>
        have hrest := wfPages_tail hwf htok
        have hih := ih hrest (rows ++ p.rows) (pc + 1) tr (fe + 1)
        simp only [hc] at hih
        simp [collectGo, htok, hih, naturalPages_cons_true htok, natRows_cons_true htok,
          traceFor, List.append_assoc]
        omega
    | some cb =>
      have hok : ∀ q n, cb q n = Except.ok () := fun q n => hcb cb q n hc
      cases htok : tokenContinues p.nextToken with
      | false =>
        simp [collectGo, htok, hok, naturalPages_cons_false htok, natRows_cons_false htok,
          traceFor, appendedTrace]
      | true =>
        have hrest := wfPages_tail hwf htok
        have hih := ih hrest (rows ++ p.rows) (pc + 1) (tr ++ [(p, (rows ++ p.rows).length)]) (fe + 1)
        simp only [hc, List.length_append, List.append_assoc] at hih
        simp [collectGo, htok, hok, hih, naturalPages_cons_true htok, natRows_cons_true htok,
          traceFor, appendedTrace, List.append_assoc, List.length_append]
        all_goals omega

/-- Complete description of the `collectWith` loop under a configured row
limit `m`, starting from an already collected prefix `rows` with
`rows.length ≤ m` (the invariant the loop maintains): the run keeps the
first `m - rows.length` of the remaining naturally available rows,
truncates according to `limitTrunc`, fetches `limitPages` many pages and
invokes the callback once per fully appended page. -/
theorem collectGo_some_char (m : Nat) (cb? : Option (PageResult T → Nat → Except E Unit))
    (hcb : cbOk cb?) :
    ∀ pages : List (PageResult T), wfPages pages = true →
      ∀ (rows : List T) (pc : Nat) (tr : List (PageResult T × Nat)) (fe : Nat),
        rows.length ≤ m →
        collectGo (some m) cb? rows pc tr fe pages =
          some ⟨.ok ⟨rows ++ (natRows pages).take (m - rows.length),
                     (rows ++ (natRows pages).take (m - rows.length)).length,
                     pc + limitPages m rows.length pages,
                     limitTrunc m rows.length pages⟩,
                tr ++ traceFor cb? (some m) rows.length pages,
                fe + limitPages m rows.length pages⟩ := by
  intro pages
  induction pages with
  | nil => intro hwf; simp [wfPages] at hwf
  | cons p rest ih =>
    intro hwf rows pc tr fe hlen
    by_cases hcond : m ≤ rows.length + p.rows.length
    · -- the truncating page: slice the first `remaining` rows and break
      have hcondI : (m : Int) - (rows.length : Int) ≤ (p.rows.length : Int) := by
        omega
      have hsub : m - rows.length ≤ p.rows.length := by omega
      have hslice : jsSliceTo p.rows ((m : Int) - (rows.length : Int)) =
          p.rows.take (m - rows.length) := by
        rw [jsSliceTo_of_nonneg _ _ (by omega)]
        congr 1
        omega
      have htake : (natRows (p :: rest)).take (m - rows.length) =
          p.rows.take (m - rows.length) := by
        cases htok : tokenContinues p.nextToken with
        | true =>
          rw [natRows_cons_true htok, List.take_append_eq_append_take]
          have hz : m - rows.length - p.rows.length = 0 := by omega
          simp [hz]
        | false => rw [natRows_cons_false htok]
      have h1 : limitPages m rows.length (p :: rest) = 1 := by
        simp [limitPages, hsub]
      have h2 : limitTrunc m rows.length (p :: rest) = true := by
        simp [limitTrunc, hsub]
      have htf : traceFor cb? (some m) rows.length (p :: rest) = [] := by
        cases cb? <;> simp [traceFor, appendedTrace, hsub]
      simp only [collectGo]
      rw [if_pos hcondI]
      simp [hslice, htake, h1, h2, htf]
    · -- the page is fully appended and the loop goes on
      have hcondI : ¬ ((m : Int) - (rows.length : Int) ≤ (p.rows.length : Int)) := by
        omega
      have hnle : ¬ (m - rows.length ≤ p.rows.length) := by omega
      cases hc : cb? with
      | none =>
        cases htok : tokenContinues p.nextToken with
        | false =>
          have h1 : limitPages m rows.length (p :: rest) = 1 := by
            simp [limitPages, hnle, htok]
          have h2 : limitTrunc m rows.length (p :: rest) = false := by
            simp [limitTrunc, hnle, htok]
          have htake : (natRows (p :: rest)).take (m - rows.length) = p.rows := by
            rw [natRows_cons_false htok]
            exact List.take_of_length_le (by omega)
          simp only [collectGo]
          rw [if_neg hcondI]
          simp [htok, traceFor, h1, h2, htake]
        | true =>
          have hrest := wfPages_tail hwf htok
          have hih := ih hrest (rows ++ p.rows) (pc + 1) tr (fe + 1)
            (by simp [List.length_append]; omega)
          simp only [hc, List.length_append, List.append_assoc] at hih
          have htake : (natRows (p :: rest)).take (m - rows.length) =
              p.rows ++ (natRows rest).take (m - (rows.length + p.rows.length)) := by
            rw [natRows_cons_true htok, List.take_append_eq_append_take,
              List.take_of_length_le (by omega : p.rows.length ≤ m - rows.length),
              Nat.sub_sub]
          have h1 : limitPages m rows.length (p :: rest) =
              1 + limitPages m (rows.length + p.rows.length) rest := by
            simp [limitPages, hnle, htok]
          have h2 : limitTrunc m rows.length (p :: rest) =
              limitTrunc m (rows.length + p.rows.length) rest := by
            simp [limitTrunc, hnle, htok]
          simp only [collectGo]
          rw [if_neg hcondI]
          simp [htok, hih, traceFor, htake, h1, h2, List.append_assoc, List.length_append]
          all_goals omega
      | some cb =>
        have hok : ∀ q n, cb q n = Except.ok () := fun q n => hcb cb q n hc
        cases htok : tokenContinues p.nextToken with
        | false =>
          have h1 : limitPages m rows.length (p :: rest) = 1 := by
            simp [limitPages, hnle, htok]
          have h2 : limitTrunc m rows.length (p :: rest) = false := by
            simp [limitTrunc, hnle, htok]
          have htake : (natRows (p :: rest)).take (m - rows.length) = p.rows := by
            rw [natRows_cons_false htok]
            exact List.take_of_length_le (by omega)
          simp only [collectGo]
          rw [if_neg hcondI]
          simp [htok, hok, traceFor, appendedTrace, hnle, h1, h2, htake]
        | true =>
          have hrest := wfPages_tail hwf htok
          have hih := ih hrest (rows ++ p.rows) (pc + 1)
            (tr ++ [(p, (rows ++ p.rows).length)]) (fe + 1)
            (by simp [List.length_append]; omega)
          simp only [hc, List.length_append, List.append_assoc] at hih
          have htake : (natRows (p :: rest)).take (m - rows.length) =
              p.rows ++ (natRows rest).take (m - (rows.length + p.rows.length)) := by
            rw [natRows_cons_true htok, List.take_append_eq_append_take,
              List.take_of_length_le (by omega : p.rows.length ≤ m - rows.length),
              Nat.sub_sub]
          have h1 : limitPages m rows.length (p :: rest) =
              1 + limitPages m (rows.length + p.rows.length) rest := by
            simp [limitPages, hnle, htok]
          have h2 : limitTrunc m rows.length (p :: rest) =
              limitTrunc m (rows.length + p.rows.length) rest := by
            simp [limitTrunc, hnle, htok]
          simp only [collectGo]
          rw [if_neg hcondI]
          simp [htok, hok, hih, traceFor, appendedTrace, hnle, htake, h1, h2,
            List.append_assoc, List.length_append]
          all_goals omega

/-- Complete description of the `stream` loop without a row limit: it
yields every naturally available row and fetches every natural page. -/
theorem streamGo_none_char :
    ∀ pages : List (PageResult T), wfPages pages = true →
      ∀ c fe, streamGo none c fe pages =
        some (natRows pages, fe + (naturalPages pages).length) := by
  intro pages
  induction pages with
  | nil => intro hwf; simp [wfPages] at hwf
  | cons p rest ih =>
    intro hwf c fe
    cases htok : tokenContinues p.nextToken with
    | false =>
      simp [streamGo, streamRows_none, htok, natRows_cons_false htok,
        naturalPages_cons_false htok]
    | true =>
      have hrest := wfPages_tail hwf htok
      simp [streamGo, streamRows_none, htok, ih hrest, natRows_cons_true htok,
        naturalPages_cons_true htok]
      omega

/-- Complete description of the `stream` loop under a configured row limit
`m`, starting from `c ≤ m` rows already yielded: it yields the first
`m - c` of the naturally available rows and fetches `streamFetches` many
pages. -/
theorem streamGo_some_char (m : Nat) :
    ∀ pages : List (PageResult T), wfPages pages = true →
      ∀ c fe, c ≤ m →
        streamGo (some m) c fe pages =
          some ((natRows pages).take (m - c), fe + streamFetches m c pages) := by
  intro pages
  induction pages with
  | nil => intro hwf; simp [wfPages] at hwf
  | cons p rest ih =>
    intro hwf c fe hc
    have hsr := streamRows_some m p.rows c hc
    by_cases hearly : m < c + p.rows.length
    · have hfetch : streamFetches m c (p :: rest) = 1 := by
        simp [streamFetches, hearly]
      have htake : (natRows (p :: rest)).take (m - c) = p.rows.take (m - c) := by
        cases htok : tokenContinues p.nextToken with
        | true =>
          rw [natRows_cons_true htok, List.take_append_eq_append_take]
          have hz : m - c - p.rows.length = 0 := by omega
          simp [hz]
        | false => rw [natRows_cons_false htok]
      simp [streamGo, hsr, hearly, hfetch, htake]
    · cases htok : tokenContinues p.nextToken with
      | false =>
        have hfetch : streamFetches m c (p :: rest) = 1 := by
          simp [streamFetches, hearly, htok]
        have htake : (natRows (p :: rest)).take (m - c) = p.rows := by
          rw [natRows_cons_false htok]
          exact List.take_of_length_le (by omega)
        simp [streamGo, hsr, hearly, htok, hfetch, htake]
        omega
      | true =>
        have hrest := wfPages_tail hwf htok
        have hmin : min (c + p.rows.length) m = c + p.rows.length :=
          Nat.min_eq_left (by omega)
        have hih := ih hrest (c + p.rows.length) (fe + 1) (by omega)
        have hfetch : streamFetches m c (p :: rest) =
            1 + streamFetches m (c + p.rows.length) rest := by
          simp [streamFetches, hearly, htok]
        have htake : (natRows (p :: rest)).take (m - c) =
            p.rows ++ (natRows rest).take (m - (c + p.rows.length)) := by
          rw [natRows_cons_true htok, List.take_append_eq_append_take,
            List.take_of_length_le (by omega : p.rows.length ≤ m - c), Nat.sub_sub]
        simp [streamGo, hsr, hearly, htok, hmin, hih, hfetch, htake]
        omega

/-- Complete description of the `processBatches` loop: it delivers the
first `batchN` pages in full to the callback with zero-based consecutive
page indices, sums their row counts, and fetches exactly those pages. -/
theorem processGo_char (mR : Option Nat) (bp : List T → Nat → Except E Unit)
    (hbp : ∀ rs i, bp rs i = Except.ok ()) :
    ∀ pages : List (PageResult T), wfPages pages = true →
      ∀ pc total tr fe,
        processGo mR bp pc total tr fe pages =
          some ⟨.ok ⟨total + sumLens (pages.take (batchN mR total pages)),
                     pc + batchN mR total pages⟩,
                tr ++ ((pages.take (batchN mR total pages)).map (fun p => p.rows)).zip
                        (List.range' pc (batchN mR total pages)),
                fe + batchN mR total pages⟩ := by
  intro pages
  induction pages with
  | nil => intro hwf; simp [wfPages] at hwf
  | cons p rest ih =>
    intro hwf pc total tr fe
    by_cases hstop : ∃ mm, mR = some mm ∧ mm ≤ total + p.rows.length
    · obtain ⟨mm, hmm, hle⟩ := hstop
      subst hmm
      have hbn : batchN (some mm) total (p :: rest) = 1 := by
        simp [batchN, hle]
      simp [processGo, hbp, hle, hbn, sumLens, List.range'_succ]
    · have hnostop : ∀ mm, mR = some mm → ¬ (mm ≤ total + p.rows.length) :=
        fun mm h hle => hstop ⟨mm, h, hle⟩
      cases htok : tokenContinues p.nextToken with
      | false =>
        have hbn : batchN mR total (p :: rest) = 1 := by
          cases mR with
          | none => simp [batchN, htok]
          | some mm => simp [batchN, htok, hnostop mm rfl]
        cases mR with
        | none => simp [processGo, hbp, htok, hbn, sumLens, List.range'_succ]
        | some mm =>
          simp [processGo, hbp, htok, hbn, hnostop mm rfl, sumLens, List.range'_succ]
      | true =>
        have hrest := wfPages_tail hwf htok
        have hbn : batchN mR total (p :: rest) =
            1 + batchN mR (total + p.rows.length) rest := by
          cases mR with
          | none => simp [batchN, htok]
          | some mm => simp [batchN, htok, hnostop mm rfl]
        have hih := ih hrest (pc + 1) (total + p.rows.length)
          (tr ++ [(p.rows, pc)]) (fe + 1)
        have hr : List.range' pc (1 + batchN mR (total + p.rows.length) rest) =
            pc :: List.range' (pc + 1) (batchN mR (total + p.rows.length) rest) := by
          rw [Nat.add_comm 1, List.range'_succ]
        have htk : (p :: rest).take (1 + batchN mR (total + p.rows.length) rest) =
            p :: rest.take (batchN mR (total + p.rows.length) rest) := by
          rw [Nat.add_comm 1]
          rfl
        cases mR with
        | none =>
          simp [processGo, hbp, htok, hbn, hr, htk, hih, sumLens, List.append_assoc]
          omega
        | some mm =>
          simp [processGo, hbp, htok, hbn, hnostop mm rfl, hr, htk, hih, sumLens,
            List.append_assoc]
          omega

/-- Behaviour of the retry loop against a fetch that fails on the first
`k` invocations and succeeds on the `k`-th (0-based), as seen from start
index `i` with `n` attempts remaining after the current one. -/
theorem retryGo_char (f : Nat → Except E P) (es : Nat → E) (pv : P) :
    ∀ n i k, (∀ j, j < k → f (i + j) = .error (es (i + j))) → f (i + k) = .ok pv →
      (k ≤ n → retryGo f i n = (.ok pv, k + 1)) ∧
      (n < k → retryGo f i n = (.error (es (i + n)), n + 1)) := by
  intro n
  induction n with
  | zero =>
    intro i k herr hok
    constructor
    · intro hk
      have hk0 : k = 0 := by omega
      subst hk0
      rw [Nat.add_zero] at hok
      simp [retryGo, hok]
    · intro hk
      have h0 := herr 0 hk
      rw [Nat.add_zero] at h0
      simp [retryGo, h0]
  | succ n ihn =>
    intro i k herr hok
    cases k with
    | zero =>
      rw [Nat.add_zero] at hok
      refine ⟨fun _ => by simp [retryGo, hok], fun hk => by omega⟩
    | succ k' =>
      have h0 := herr 0 (by omega)
      rw [Nat.add_zero] at h0
      have hshift : ∀ j, j < k' → f (i + 1 + j) = .error (es (i + 1 + j)) := by
        intro j hj
        have h := herr (j + 1) (by omega)
        rwa [show i + (j + 1) = i + 1 + j by omega] at h
      have hok' : f (i + 1 + k') = .ok pv := by
        rwa [show i + (k' + 1) = i + 1 + k' by omega] at hok
      have ihr := ihn (i + 1) k' hshift hok'
      constructor
      · intro hk
        have hr := ihr.1 (by omega)
        simp [retryGo, h0, hr]
      · intro hk
        have hr := ihr.2 (by omega)
        have hidx : i + (n + 1) = i + 1 + n := by omega
        rw [hidx]
        simp [retryGo, h0, hr]

/-- If a `collectWith` run ends in an error, the error is exactly the value
the configured callback returned on its last invocation, and the loop
performed no fetch after the page whose callback failed. -/
theorem collectGo_error_char (mR : Option Nat) (cb : PageResult T → Nat → Except E Unit) :
    ∀ (pages : List (PageResult T)) (rows : List T) (pc : Nat)
      (tr : List (PageResult T × Nat)) (fe : Nat) (o : CollectOut T E) (e : E),
      fe = tr.length →
      collectGo mR (some cb) rows pc tr fe pages = some o →
      o.result = .error e →
      (∃ pre q n, o.trace = pre ++ [(q, n)] ∧ cb q n = Except.error e) ∧
      o.fetches = o.trace.length := by
  intro pages
  induction pages with
  | nil =>
    intro rows pc tr fe o e hfe hrun hres
    simp [collectGo] at hrun
  | cons p rest ih =>
    intro rows pc tr fe o e hfe hrun hres
    cases mR with
    | some m =>
      by_cases hcond : (m : Int) - (rows.length : Int) ≤ (p.rows.length : Int)
      · simp only [collectGo] at hrun
        rw [if_pos hcond] at hrun
        simp only [Option.some.injEq] at hrun
        subst hrun
        simp at hres
      · simp only [collectGo] at hrun
        rw [if_neg hcond] at hrun
        cases hcbv : cb p (rows ++ p.rows).length with
        | error e' =>
          simp only [hcbv, Option.some.injEq] at hrun
          subst hrun
          simp only [CollectOut.result] at hres  -- hres : Except.error e' = Except.error e
          cases hres
          refine ⟨⟨tr, p, (rows ++ p.rows).length, rfl, hcbv⟩, ?_⟩
          simp [hfe]
        | ok u =>
          simp only [hcbv] at hrun
          cases htok : tokenContinues p.nextToken with
          | true =>
            simp only [htok, if_true] at hrun
            exact ih (rows ++ p.rows) (pc + 1) (tr ++ [(p, (rows ++ p.rows).length)])
              (fe + 1) o e (by simp [hfe]) hrun hres
          | false =>
            simp only [htok, Bool.false_eq_true, if_false, Option.some.injEq] at hrun
            subst hrun
            simp at hres
    | none =>
      simp only [collectGo] at hrun
      cases hcbv : cb p (rows ++ p.rows).length with
      | error e' =>
        simp only [hcbv, Option.some.injEq] at hrun
        subst hrun
        simp only [CollectOut.result] at hres
        cases hres
        refine ⟨⟨tr, p, (rows ++ p.rows).length, rfl, hcbv⟩, ?_⟩
        simp [hfe]
      | ok u =>
        simp only [hcbv] at hrun
        cases htok : tokenContinues p.nextToken with
        | true =>
          simp only [htok, if_true] at hrun
          exact ih (rows ++ p.rows) (pc + 1) (tr ++ [(p, (rows ++ p.rows).length)])
            (fe + 1) o e (by simp [hfe]) hrun hres
        | false =>
          simp only [htok, Bool.false_eq_true, if_false, Option.some.injEq] at hrun
          subst hrun
          simp at hres

/-- If a `processBatches` run ends in an error, the error is exactly the
value the batch processor returned on its last invocation, and the loop
performed no fetch after the page whose processing failed. -/
theorem processGo_error_char (mR : Option Nat) (bp : List T → Nat → Except E Unit) :
    ∀ (pages : List (PageResult T)) (pc total : Nat)
      (tr : List (List T × Nat)) (fe : Nat) (b : BatchOut T E) (e : E),
      fe = tr.length →
      processGo mR bp pc total tr fe pages = some b →
      b.result = .error e →
      (∃ pre rs i, b.trace = pre ++ [(rs, i)] ∧ bp rs i = Except.error e) ∧
      b.fetches = b.trace.length := by
  intro pages
  induction pages with
  | nil =>
    intro pc total tr fe b e hfe hrun hres
    simp [processGo] at hrun
  | cons p rest ih =>
    intro pc total tr fe b e hfe hrun hres
    simp only [processGo] at hrun
    cases hbpv : bp p.rows pc with
    | error e' =>
      simp only [hbpv, Option.some.injEq] at hrun
      subst hrun
      simp only [BatchOut.result] at hres
      cases hres
      refine ⟨⟨tr, p.rows, pc, rfl, hbpv⟩, ?_⟩
      simp [hfe]
    | ok u =>
      simp only [hbpv] at hrun
      split at hrun
      · simp only [Option.some.injEq] at hrun
        subst hrun
        simp at hres
      · split at hrun
        · exact ih (pc + 1) (total + p.rows.length) (tr ++ [(p.rows, pc)]) (fe + 1)
            b e (by simp [hfe]) hrun hres
        · simp only [Option.some.injEq] at hrun
          subst hrun
          simp at hres

/-- One iteration of the `collectWith` loop either terminates with exactly
one more fetch (and, on success, one more counted page), or continues on
the rest of the pages with the token of the current page being truthy. -/
theorem collectGo_cons_cases (mR : Option Nat)
    (cb? : Option (PageResult T → Nat → Except E Unit))
    (p : PageResult T) (rest : List (PageResult T)) :
    ∀ (rows : List T) (pc : Nat) (tr : List (PageResult T × Nat)) (fe : Nat)
      (o : CollectOut T E),
      collectGo mR cb? rows pc tr fe (p :: rest) = some o →
      (o.fetches = fe + 1 ∧ ∀ r, o.result = Except.ok r → r.pageCount = pc + 1) ∨
      (tokenContinues p.nextToken = true ∧
        ∃ rows' tr', collectGo mR cb? rows' (pc + 1) tr' (fe + 1) rest = some o) := by
  intro rows pc tr fe o hrun
  cases mR with
  | some m =>
    simp only [collectGo] at hrun
    by_cases hcond : (m : Int) - (rows.length : Int) ≤ (p.rows.length : Int)
    · rw [if_pos hcond] at hrun
      simp only [Option.some.injEq] at hrun
      subst hrun
      exact Or.inl ⟨rfl, fun r hr => by cases hr; rfl⟩
    · rw [if_neg hcond] at hrun
      cases hc : cb? with
      | none =>
        simp only [hc] at hrun
        cases htok : tokenContinues p.nextToken with
        | true =>
          simp only [htok, if_true] at hrun
          exact Or.inr ⟨rfl, rows ++ p.rows, tr, hrun⟩
        | false =>
          simp only [htok, Bool.false_eq_true, if_false, Option.some.injEq] at hrun
          subst hrun
          exact Or.inl ⟨rfl, fun r hr => by cases hr; rfl⟩
      | some cb =>
        simp only [hc] at hrun
        cases hcbv : cb p (rows ++ p.rows).length with
        | error e' =>
          simp only [hcbv, Option.some.injEq] at hrun
          subst hrun
          exact Or.inl ⟨rfl, fun r hr => by cases hr⟩
        | ok u =>
          simp only [hcbv] at hrun
          cases htok : tokenContinues p.nextToken with
          | true =>
            simp only [htok, if_true] at hrun
            exact Or.inr ⟨rfl, rows ++ p.rows, tr ++ [(p, (rows ++ p.rows).length)], hrun⟩
          | false =>
            simp only [htok, Bool.false_eq_true, if_false, Option.some.injEq] at hrun
            subst hrun
            exact Or.inl ⟨rfl, fun r hr => by cases hr; rfl⟩
  | none =>
    simp only [collectGo] at hrun
    cases hc : cb? with
    | none =>
      simp only [hc] at hrun
      cases htok : tokenContinues p.nextToken with
      | true =>
        simp only [htok, if_true] at hrun
        exact Or.inr ⟨rfl, rows ++ p.rows, tr, hrun⟩
      | false =>
        simp only [htok, Bool.false_eq_true, if_false, Option.some.injEq] at hrun
        subst hrun
        exact Or.inl ⟨rfl, fun r hr => by cases hr; rfl⟩
    | some cb =>
      simp only [hc] at hrun
      cases hcbv : cb p (rows ++ p.rows).length with
      | error e' =>
        simp only [hcbv, Option.some.injEq] at hrun
        subst hrun
        exact Or.inl ⟨rfl, fun r hr => by cases hr⟩
      | ok u =>
        simp only [hcbv] at hrun
        cases htok : tokenContinues p.nextToken with
        | true =>
          simp only [htok, if_true] at hrun
          exact Or.inr ⟨rfl, rows ++ p.rows, tr ++ [(p, (rows ++ p.rows).length)], hrun⟩
        | false =>
          simp only [htok, Bool.false_eq_true, if_false, Option.some.injEq] at hrun
          subst hrun
          exact Or.inl ⟨rfl, fun r hr => by cases hr; rfl⟩

/-- One iteration of the `stream` loop either terminates with exactly one
more fetch, or continues on the rest of the pages with a truthy token. -/
theorem streamGo_cons_cases (mR : Option Nat) (p : PageResult T)
    (rest : List (PageResult T)) :
    ∀ (count fe : Nat) (s : List T × Nat),
      streamGo mR count fe (p :: rest) = some s →
      s.2 = fe + 1 ∨
      (tokenContinues p.nextToken = true ∧
        ∃ c' out', streamGo mR c' (fe + 1) rest = some out' ∧ s.2 = out'.2) := by
  intro count fe s hrun
  simp only [streamGo] at hrun
  cases hearly : (streamRows mR count p.rows).2.2 with
  | true =>
    simp only [hearly, if_true, Option.some.injEq] at hrun
    subst hrun
    exact Or.inl rfl
  | false =>
    simp only [hearly, Bool.false_eq_true, if_false] at hrun
    cases htok : tokenContinues p.nextToken with
    | true =>
      simp only [htok, if_true] at hrun
      cases hrec : streamGo mR (streamRows mR count p.rows).2.1 (fe + 1) rest with
      | none =>
        simp only [hrec] at hrun
        exact Option.noConfusion hrun
      | some out' =>
        simp only [hrec] at hrun
        cases out' with
        | mk ys fc =>
          simp only [Option.some.injEq] at hrun
          subst hrun
          exact Or.inr ⟨rfl, (streamRows mR count p.rows).2.1, (ys, fc), hrec, rfl⟩
    | false =>
      simp only [htok, Bool.false_eq_true, if_false, Option.some.injEq] at hrun
      subst hrun
      exact Or.inl rfl

/-- One iteration of the `processBatches` loop either terminates with
exactly one more fetch and one more trace entry, or continues with a
truthy token. -/
theorem processGo_cons_cases (mR : Option Nat) (bp : List T → Nat → Except E Unit)
    (p : PageResult T) (rest : List (PageResult T)) :
    ∀ (pc total : Nat) (tr : List (List T × Nat)) (fe : Nat) (b : BatchOut T E),
      processGo mR bp pc total tr fe (p :: rest) = some b →
      (b.fetches = fe + 1 ∧ b.trace = tr ++ [(p.rows, pc)] ∧
        ∀ res, b.result = Except.ok res → res.pageCount = pc + 1) ∨
      (tokenContinues p.nextToken = true ∧
        processGo mR bp (pc + 1) (total + p.rows.length) (tr ++ [(p.rows, pc)])
          (fe + 1) rest = some b) := by
  intro pc total tr fe b hrun
  simp only [processGo] at hrun
  cases hbpv : bp p.rows pc with
  | error e' =>
    simp only [hbpv, Option.some.injEq] at hrun
    subst hrun
    exact Or.inl ⟨rfl, rfl, fun res hres => by cases hres⟩
  | ok u =>
    simp only [hbpv] at hrun
    split at hrun
    · simp only [Option.some.injEq] at hrun
      subst hrun
      exact Or.inl ⟨rfl, rfl, fun res hres => by cases hres; rfl⟩
    · cases htok : tokenContinues p.nextToken with
      | true =>
        simp only [htok, if_true] at hrun
        exact Or.inr ⟨rfl, hrun⟩
      | false =>
        simp only [htok, Bool.false_eq_true, if_false, Option.some.injEq] at hrun
        subst hrun
        exact Or.inl ⟨rfl, rfl, fun res hres => by cases hres; rfl⟩

/-- Loop invariants of `collectWith` needed for the fetch/token claims:
at least one fetch happens, and every page except possibly the last
fetched one had a truthy continuation token. -/
theorem collectGo_fetch_inv (mR : Option Nat)
    (cb? : Option (PageResult T → Nat → Except E Unit)) :
    ∀ (pages : List (PageResult T)) (rows : List T) (pc : Nat)
      (tr : List (PageResult T × Nat)) (fe : Nat) (o : CollectOut T E),
      collectGo mR cb? rows pc tr fe pages = some o →
      fe + 1 ≤ o.fetches ∧
      ∀ j q, fe + (j + 1) < o.fetches → pages[j]? = some q →
        tokenContinues q.nextToken = true := by
  intro pages
  induction pages with
  | nil => intro rows pc tr fe o hrun; simp [collectGo] at hrun
  | cons p rest ih =>
    intro rows pc tr fe o hrun
    rcases collectGo_cons_cases mR cb? p rest rows pc tr fe o hrun with
      ⟨hfe, _⟩ | ⟨htok, rows', tr', hrec⟩
    · refine ⟨by omega, ?_⟩
      intro j q hj hq
      exact absurd hj (by omega)
    · obtain ⟨h1, h2⟩ := ih rows' (pc + 1) tr' (fe + 1) o hrec
      refine ⟨by omega, ?_⟩
      intro j q hj hq
      cases j with
      | zero =>
        simp only [List.getElem?_cons_zero, Option.some.injEq] at hq
        subst hq
        exact htok
      | succ j' =>
        simp only [List.getElem?_cons_succ] at hq
        exact h2 j' q (by omega) hq

/-- A successful `collectWith` run counts at least one page. -/
theorem collectGo_pageCount_inv (mR : Option Nat)
    (cb? : Option (PageResult T → Nat → Except E Unit)) :
    ∀ (pages : List (PageResult T)) (rows : List T) (pc : Nat)
      (tr : List (PageResult T × Nat)) (fe : Nat) (o : CollectOut T E)
      (r : CollectResult T),
      collectGo mR cb? rows pc tr fe pages = some o →
      o.result = Except.ok r → pc + 1 ≤ r.pageCount := by
  intro pages
  induction pages with
  | nil => intro rows pc tr fe o r hrun hres; simp [collectGo] at hrun
  | cons p rest ih =>
    intro rows pc tr fe o r hrun hres
    rcases collectGo_cons_cases mR cb? p rest rows pc tr fe o hrun with
      ⟨_, h2⟩ | ⟨_, rows', tr', hrec⟩
    · exact le_of_eq (h2 r hres).symm
    · have := ih rows' (pc + 1) tr' (fe + 1) o r hrec hres
      omega

/-- Loop invariants of `stream`: at least one fetch happens, and every
page except possibly the last fetched one had a truthy token. -/
theorem streamGo_fetch_inv (mR : Option Nat) :
    ∀ (pages : List (PageResult T)) (count fe : Nat) (s : List T × Nat),
      streamGo mR count fe pages = some s →
      fe + 1 ≤ s.2 ∧
      ∀ j q, fe + (j + 1) < s.2 → pages[j]? = some q →
        tokenContinues q.nextToken = true := by
  intro pages
  induction pages with
  | nil => intro count fe s hrun; simp [streamGo] at hrun
  | cons p rest ih =>
    intro count fe s hrun
    rcases streamGo_cons_cases mR p rest count fe s hrun with
      hfe | ⟨htok, c', out', hrec, hs2⟩
    · refine ⟨by omega, ?_⟩
      intro j q hj hq
      exact absurd hj (by omega)
    · obtain ⟨h1, h2⟩ := ih c' (fe + 1) out' hrec
      refine ⟨by omega, ?_⟩
      intro j q hj hq
      cases j with
      | zero =>
        simp only [List.getElem?_cons_zero, Option.some.injEq] at hq
        subst hq
        exact htok
      | succ j' =>
        simp only [List.getElem?_cons_succ] at hq
        exact h2 j' q (by omega) hq

/-- Loop invariants of `processBatches`: at least one fetch and one
callback invocation happen, a successful run counts at least one page,
and every page except possibly the last fetched one had a truthy token. -/
theorem processGo_inv (mR : Option Nat) (bp : List T → Nat → Except E Unit) :
    ∀ (pages : List (PageResult T)) (pc total : Nat)
      (tr : List (List T × Nat)) (fe : Nat) (b : BatchOut T E),
      processGo mR bp pc total tr fe pages = some b →
      (fe + 1 ≤ b.fetches ∧ tr.length + 1 ≤ b.trace.length ∧
        ∀ res, b.result = Except.ok res → pc + 1 ≤ res.pageCount) ∧
      ∀ j q, fe + (j + 1) < b.fetches → pages[j]? = some q →
        tokenContinues q.nextToken = true := by
  intro pages
  induction pages with
  | nil => intro pc total tr fe b hrun; simp [processGo] at hrun
  | cons p rest ih =>
    intro pc total tr fe b hrun
    rcases processGo_cons_cases mR bp p rest pc total tr fe b hrun with
      ⟨hfe, htr, hpc⟩ | ⟨htok, hrec⟩
    · refine ⟨⟨by omega, by simp [htr], fun res hres => le_of_eq (hpc res hres).symm⟩, ?_⟩
      intro j q hj hq
      exact absurd hj (by omega)
    · obtain ⟨⟨h1, h1t, h1p⟩, h2⟩ := ih (pc + 1) (total + p.rows.length)
        (tr ++ [(p.rows, pc)]) (fe + 1) b hrec
      refine ⟨⟨by omega, by simp at h1t; omega, fun res hres => by have := h1p res hres; omega⟩, ?_⟩
      intro j q hj hq
      cases j with
      | zero =>
        simp only [List.getElem?_cons_zero, Option.some.injEq] at hq
        subst hq
        exact htok
      | succ j' =>
        simp only [List.getElem?_cons_succ] at hq
        exact h2 j' q (by omega) hq

/-- Under a row limit, truncation occurs exactly when the limit does not
exceed the naturally available rows. -/
theorem limitTrunc_iff (m : Nat) :
    ∀ pages : List (PageResult T), wfPages pages = true → ∀ c, c ≤ m →
      (limitTrunc m c pages = true ↔ m - c ≤ (natRows pages).length) := by
  intro pages
  induction pages with
  | nil => intro hwf; simp [wfPages] at hwf
  | cons p rest ih =>
    intro hwf c hc
    by_cases hcond : m - c ≤ p.rows.length
    · have ht : limitTrunc m c (p :: rest) = true := by simp [limitTrunc, hcond]
      have hlen : p.rows.length ≤ (natRows (p :: rest)).length := by
        cases htok : tokenContinues p.nextToken with
        | true => simp [natRows_cons_true htok]
        | false => simp [natRows_cons_false htok]
      simp [ht]
      omega
    · cases htok : tokenContinues p.nextToken with
      | true =>
        have hrest := wfPages_tail hwf htok
        have hih := ih hrest (c + p.rows.length) (by omega)
        simp [limitTrunc, hcond, htok, natRows_cons_true htok, hih]
        omega
      | false =>
        have hfalse : limitTrunc m c (p :: rest) = false := by
          simp [limitTrunc, hcond, htok]
        simp [hfalse, natRows_cons_false htok]
        omega

/-- When the first `k` pages all carry truthy tokens, the naturally
available rows split as those `k` pages' rows followed by the rest. -/
theorem natRows_split :
    ∀ (k : Nat) (pages : List (PageResult T)), k ≤ pages.length →
      (∀ j q, j < k → pages[j]? = some q → tokenContinues q.nextToken = true) →
      natRows pages =
        ((pages.take k).map (fun p => p.rows)).flatten ++ natRows (pages.drop k) := by
  intro k
  induction k with
  | zero => intro pages _ _; simp
  | succ k' ih =>
    intro pages hk htoks
    cases pages with
    | nil => simp at hk
    | cons p rest =>
      have htok : tokenContinues p.nextToken = true := htoks 0 p (by omega) (by simp)
      have hr := ih rest (by simpa using hk)
        (fun j q hj hq => htoks (j + 1) q (by omega) (by simpa using hq))
      rw [natRows_cons_true htok]
      simp [hr, List.append_assoc]

/-- The flattened rows of a page list have the summed length. -/
theorem flatten_sumLens (pages : List (PageResult T)) :
    ((pages.map (fun p => p.rows)).flatten).length = sumLens pages := by
  simp only [sumLens, List.length_flatten, List.map_map]
  rfl

/-- Taking one more page adds that page's row count to the running sum. -/
theorem sumLens_take_succ (pages : List (PageResult T)) (n : Nat) (q : PageResult T)
    (hq : pages[n]? = some q) :
    sumLens (pages.take (n + 1)) = sumLens (pages.take n) + q.rows.length := by
  rw [List.take_succ, hq]
  simp [sumLens]

/-- The limited collection loop fetches at least one page. -/
theorem limitPages_pos (m c : Nat) (p : PageResult T) (rest : List (PageResult T)) :
    1 ≤ limitPages m c (p :: rest) := by
  by_cases hcond : m - c ≤ p.rows.length
  · simp [limitPages, hcond]
  · cases htok : tokenContinues p.nextToken <;> simp [limitPages, hcond, htok]

/-- Length of the callback trace under a row limit: one entry per fetched
page except the truncating one. -/
theorem appendedTrace_length_some (m : Nat) :
    ∀ pages : List (PageResult T), wfPages pages = true → ∀ c, c ≤ m →
      (appendedTrace (some m) c pages).length =
        if limitTrunc m c pages then limitPages m c pages - 1
        else limitPages m c pages := by
  intro pages
  induction pages with
  | nil => intro hwf; simp [wfPages] at hwf
  | cons p rest ih =>
    intro hwf c hc
    by_cases hcond : m - c ≤ p.rows.length
    · simp [appendedTrace, limitTrunc, limitPages, hcond]
    · cases htok : tokenContinues p.nextToken with
      | false =>
        simp [appendedTrace, limitTrunc, limitPages, hcond, htok]
      | true =>
        have hrest := wfPages_tail hwf htok
        have hih := ih hrest (c + p.rows.length) (by omega)
        have hpos : 1 ≤ limitPages m (c + p.rows.length) rest := by
          cases rest with
          | nil => simp [wfPages] at hrest
          | cons q rest' => exact limitPages_pos m (c + p.rows.length) q rest'
        simp only [appendedTrace, limitTrunc, limitPages, hcond, htok]
        by_cases ht : limitTrunc m (c + p.rows.length) rest = true <;>
          simp [ht, hih, hcond] <;> omega

/-- Length of the callback trace without a row limit: one entry per
naturally fetched page. -/
theorem appendedTrace_length_none :
    ∀ pages : List (PageResult T), wfPages pages = true → ∀ c,
      (appendedTrace (T := T) none c pages).length = (naturalPages pages).length := by
  intro pages
  induction pages with
  | nil => intro hwf; simp [wfPages] at hwf
  | cons p rest ih =>
    intro hwf c
    cases htok : tokenContinues p.nextToken with
    | false => simp [appendedTrace, htok, naturalPages_cons_false htok]
    | true =>
      have hrest := wfPages_tail hwf htok
      simp [appendedTrace, htok, naturalPages_cons_true htok, ih hrest]

/-- The stream loop fetches at least one page from a nonempty sequence. -/
theorem streamFetches_cons_pos (m c : Nat) (p : PageResult T)
    (rest : List (PageResult T)) : 1 ≤ streamFetches m c (p :: rest) := by
  by_cases h1 : m < c + p.rows.length
  · simp [streamFetches, h1]
  · cases htok : tokenContinues p.nextToken <;> simp [streamFetches, h1, htok]

/-- Once the yielded count equals the limit, a nonempty page makes the
stream loop stop after fetching exactly that page. -/
theorem streamFetches_full (m : Nat) (p : PageResult T) (rest : List (PageResult T))
    (hne : p.rows ≠ []) : streamFetches m m (p :: rest) = 1 := by
  have h : m < m + p.rows.length := by
    have := List.length_pos.mpr hne
    omega
  simp [streamFetches, h]

/-- When the row limit is reached exactly at the end of the `k`-th fetched
page (all of whose predecessors carry truthy tokens and stay strictly
below the limit), the limited collection loop fetches exactly `k` pages
and truncates, while the stream loop keeps fetching past them. -/
theorem limit_exact_char (m : Nat) :
    ∀ (k : Nat) (pages : List (PageResult T)) (c : Nat), 1 ≤ k → k ≤ pages.length →
      (∀ j q, j < k → pages[j]? = some q → tokenContinues q.nextToken = true) →
      (∀ j, 1 ≤ j → j < k → c + sumLens (pages.take j) < m) →
      c + sumLens (pages.take k) = m →
      limitPages m c pages = k ∧ limitTrunc m c pages = true ∧
      streamFetches m c pages = k + streamFetches m m (pages.drop k) := by
  intro k
  induction k with
  | zero => intro pages c h1; omega
  | succ k' ih =>
    intro pages c h1 hk htoks hbelow hexact
    cases pages with
    | nil => simp at hk
    | cons p rest =>
      have htok : tokenContinues p.nextToken = true := htoks 0 p (by omega) (by simp)
      cases k' with
      | zero =>
        have hce : c + p.rows.length = m := by
          simpa [sumLens] using hexact
        have hcond : m - c ≤ p.rows.length := by omega
        have hnot : ¬ (m < c + p.rows.length) := by omega
        refine ⟨by simp [limitPages, hcond], by simp [limitTrunc, hcond], ?_⟩
        simp [streamFetches, hnot, htok, hce]
      | succ k'' =>
        have hfst : c + p.rows.length < m := by
          have h := hbelow 1 (by omega) (by omega)
          simpa [sumLens] using h
        have hrec := ih rest (c + p.rows.length) (by omega) (by simpa using hk)
          (fun j q hj hq => htoks (j + 1) q (by omega) (by simpa using hq))
          (fun j hj1 hjk => by
            have h := hbelow (j + 1) (by omega) (by omega)
            simp only [List.take_succ_cons, sumLens, List.map_cons, List.sum_cons] at h ⊢
            omega)
          (by
            simp only [List.take_succ_cons, sumLens, List.map_cons, List.sum_cons] at hexact ⊢
            omega)
        have hcond : ¬ (m - c ≤ p.rows.length) := by omega
        have hnot : ¬ (m < c + p.rows.length) := by omega
        refine ⟨?_, ?_, ?_⟩
        · simp [limitPages, hcond, htok, hrec.1]
          omega
        · simp [limitTrunc, hcond, htok, hrec.2.1]
        · simp [streamFetches, hnot, htok, hrec.2.2]
          omega

/-- The batch loop never delivers more pages than the sequence holds. -/
theorem batchN_le_length (mR : Option Nat) :
    ∀ (pages : List (PageResult T)) (total : Nat),
      batchN mR total pages ≤ pages.length := by
  intro pages
  induction pages with
  | nil => intro total; simp [batchN]
  | cons p rest ih =>
    intro total
    have h := ih (total + p.rows.length)
    by_cases hstop : ∃ mm, mR = some mm ∧ mm ≤ total + p.rows.length
    · obtain ⟨mm, rfl, hle⟩ := hstop
      simp [batchN, hle]
    · have hn : ∀ mm, mR = some mm → ¬ mm ≤ total + p.rows.length :=
        fun mm hm hle => hstop ⟨mm, hm, hle⟩
      cases mR with
      | none =>
        cases htok : tokenContinues p.nextToken <;> simp [batchN, htok] <;> omega
      | some mm =>
        cases htok : tokenContinues p.nextToken <;>
          simp [batchN, htok, hn mm rfl] <;> omega

/-- The batch loop delivers at least one page of a nonempty sequence. -/
theorem batchN_pos (mR : Option Nat) (total : Nat) (p : PageResult T)
    (rest : List (PageResult T)) : 1 ≤ batchN mR total (p :: rest) := by
  by_cases hstop : ∃ mm, mR = some mm ∧ mm ≤ total + p.rows.length
  · obtain ⟨mm, rfl, hle⟩ := hstop
    simp [batchN, hle]
  · have hn : ∀ mm, mR = some mm → ¬ mm ≤ total + p.rows.length :=
      fun mm hm hle => hstop ⟨mm, hm, hle⟩
    cases mR with
    | none =>
      cases htok : tokenContinues p.nextToken <;> simp [batchN, htok]
    | some mm =>
      cases htok : tokenContinues p.nextToken <;>
        simp [batchN, htok, hn mm rfl]

/-- Every page the batch loop delivers before its last one leaves the
running total strictly below the limit. -/
theorem batchN_below (m : Nat) :
    ∀ (pages : List (PageResult T)) (total j : Nat),
      j + 1 < batchN (some m) total pages →
      total + sumLens (pages.take (j + 1)) < m := by
  intro pages
  induction pages with
  | nil => intro total j h; simp [batchN] at h
  | cons p rest ih =>
    intro total j h
    by_cases hle : m ≤ total + p.rows.length
    · simp [batchN, hle] at h
    · cases htok : tokenContinues p.nextToken with
      | false => simp [batchN, hle, htok] at h
      | true =>
        simp only [batchN, htok] at h
        rw [if_neg (by simpa using hle)] at h
        simp only [if_true] at h
        cases j with
        | zero =>
          simp [sumLens]
          omega
        | succ j' =>
          have hih := ih (total + p.rows.length) j' (by omega)
          simp only [List.take_succ_cons, sumLens, List.map_cons, List.sum_cons] at hih ⊢
          omega

/-! ### Claim theorems -/

/-- Claim C1: for every page sequence, when no row limit is configured,
`collectWith` returns rows equal to the concatenation of every fetched
page's rows in fetch order, `pageCount` equal to the number of page fetch
calls performed (the `fetches` instrumentation), and `truncated = false`. -/
theorem claim1_collect_unlimited (pages : List (PageResult T))
    (hwf : wfPages pages = true) :
    collectWith (E := E) none none pages =
      some ⟨Except.ok ⟨natRows pages, (natRows pages).length,
              (naturalPages pages).length, false⟩,
            [], (naturalPages pages).length⟩ := by
  have h := collectGo_none_char (E := E) none
    (fun cb p n hh => Option.noConfusion hh) pages hwf [] 0 [] 0
  simpa [collectWith, traceFor] using h

/-- Claim C2: for every page sequence and configured row limit `m`, the
truncating page contributes exactly its first `remaining` rows (so the
result is the `m`-prefix of the naturally available rows), `truncated` is
set exactly when the limit does not exceed the available rows, the
truncating page is still counted, fetching stops with it
(`fetches = pageCount = limitPages`), and `rows.length = min m available`
(in particular zero rows are appended when `remaining` is zero). -/
theorem claim2_collect_limited (pages : List (PageResult T)) (m : Nat)
    (hwf : wfPages pages = true) :
    ∃ r : CollectResult T,
      collectWith (E := E) (some m) none pages =
        some ⟨Except.ok r, [], limitPages m 0 pages⟩ ∧
      r.rows = (natRows pages).take m ∧
      r.totalRows = r.rows.length ∧
      r.rows.length = min m (natRows pages).length ∧
      (r.truncated = true ↔ m ≤ (natRows pages).length) ∧
      r.pageCount = limitPages m 0 pages := by
  have h := collectGo_some_char (E := E) m none
    (fun cb p n hh => Option.noConfusion hh) pages hwf [] 0 [] 0 (by simp)
  refine ⟨⟨(natRows pages).take m, ((natRows pages).take m).length,
    limitPages m 0 pages, limitTrunc m 0 pages⟩, ?_, rfl, rfl, ?_, ?_, rfl⟩
  · simpa [collectWith, traceFor] using h
  · simp [List.length_take]
  · have hiff := limitTrunc_iff m pages hwf 0 (by omega)
    simpa using hiff

/-- Claim C3: against a fetch behaviour failing `k` times then succeeding,
`fetchPageWithRetry` succeeds after exactly `k + 1` fetch invocations when
`retryCount ≥ k`, and otherwise fails with the most recent error,
unchanged, after exactly `retryCount + 1` invocations. -/
theorem claim3_retry (f : Nat → Except E P) (k : Nat) (es : Nat → E) (pv : P)
    (herr : ∀ j, j < k → f j = .error (es j)) (hok : f k = .ok pv) (r : Nat) :
    (k ≤ r → fetchPageWithRetry r f = (.ok pv, k + 1)) ∧
    (r < k → fetchPageWithRetry r f = (.error (es r), r + 1)) := by
  have h := retryGo_char f es pv r 0 k (by simpa using herr) (by simpa using hok)
  simpa [fetchPageWithRetry] using h

/-- Claim C4: for every page sequence and limit configuration, `stream`
yields exactly the rows `collectWith` would return, in order, and never
more than `maxRows` of them when a limit is set. -/
theorem claim4_stream_matches_collect (pages : List (PageResult T)) (mR : Option Nat)
    (hwf : wfPages pages = true) :
    ∃ (ys : List T) (fc : Nat) (o : CollectOut T Unit) (r : CollectResult T),
      stream mR pages = some (ys, fc) ∧
      collectWith mR none pages = some o ∧
      o.result = Except.ok r ∧
      ys = r.rows ∧
      ∀ m, mR = some m → ys.length ≤ m := by
  cases mR with
  | none =>
    have hs := streamGo_none_char pages hwf 0 0
    have hcoll := collectGo_none_char (E := Unit) none
      (fun cb p n hh => Option.noConfusion hh) pages hwf [] 0 [] 0
    refine ⟨natRows pages, (naturalPages pages).length,
      ⟨Except.ok ⟨natRows pages, (natRows pages).length,
          (naturalPages pages).length, false⟩,
        [], (naturalPages pages).length⟩,
      ⟨natRows pages, (natRows pages).length, (naturalPages pages).length, false⟩,
      ?_, ?_, rfl, rfl, ?_⟩
    · simpa [stream] using hs
    · simpa [collectWith, traceFor] using hcoll
    · intro m hm
      cases hm
  | some m =>
    have hs := streamGo_some_char m pages hwf 0 0 (by omega)
    have hcoll := collectGo_some_char (E := Unit) m none
      (fun cb p n hh => Option.noConfusion hh) pages hwf [] 0 [] 0 (by simp)
    refine ⟨(natRows pages).take m, streamFetches m 0 pages,
      ⟨Except.ok ⟨(natRows pages).take m, ((natRows pages).take m).length,
          limitPages m 0 pages, limitTrunc m 0 pages⟩,
        [], limitPages m 0 pages⟩,
      ⟨(natRows pages).take m, ((natRows pages).take m).length,
        limitPages m 0 pages, limitTrunc m 0 pages⟩,
      ?_, ?_, rfl, rfl, ?_⟩
    · simpa [stream] using hs
    · simpa [collectWith, traceFor] using hcoll
    · intro m' hm'
      cases hm'
      simp [List.length_take]

/-- Claim C5: `processBatches` invokes the batch processor once per
fetched page with the page's full row list and a zero-based consecutive
page index, awaiting it before continuing; `totalRows` is the sum of the
delivered pages' lengths; with a limit configured the loop stops only
after the full crossing page was delivered (every earlier delivered page
leaves the total strictly below the limit), so `totalRows` can exceed the
limit by at most the last delivered page's row count. -/
theorem claim5_processBatches (pages : List (PageResult T)) (mR : Option Nat)
    (bp : List T → Nat → Except E Unit) (hbp : ∀ rs i, bp rs i = Except.ok ())
    (hwf : wfPages pages = true) :
    ∃ (b : BatchOut T E) (res : BatchResult),
      processBatches mR bp pages = some b ∧
      b.result = Except.ok res ∧
      b.trace.map Prod.fst = (pages.take res.pageCount).map (fun p => p.rows) ∧
      b.trace.map Prod.snd = List.range res.pageCount ∧
      res.totalRows = sumLens (pages.take res.pageCount) ∧
      b.fetches = res.pageCount ∧
      1 ≤ res.pageCount ∧ res.pageCount ≤ pages.length ∧
      (∀ m, mR = some m → ∀ j, j + 1 < res.pageCount →
        sumLens (pages.take (j + 1)) < m) ∧
      (∀ m, mR = some m → ∀ q, pages[res.pageCount - 1]? = some q →
        res.totalRows ≤ m + q.rows.length) := by
  have h := processGo_char mR bp hbp pages hwf 0 0 [] 0
  have hNle : batchN mR 0 pages ≤ pages.length := batchN_le_length mR pages 0
  have hNpos : 1 ≤ batchN mR 0 pages := by
    cases pages with
    | nil => simp [wfPages] at hwf
    | cons p rest => exact batchN_pos mR 0 p rest
  have hlen1 : ((pages.take (batchN mR 0 pages)).map (fun p => p.rows)).length =
      batchN mR 0 pages := by
    simp [List.length_take]
    omega
  have hlen2 : (List.range' 0 (batchN mR 0 pages)).length = batchN mR 0 pages := by
    simp [List.length_range']
  refine ⟨⟨Except.ok ⟨sumLens (pages.take (batchN mR 0 pages)), batchN mR 0 pages⟩,
      ((pages.take (batchN mR 0 pages)).map (fun p => p.rows)).zip
        (List.range' 0 (batchN mR 0 pages)),
      batchN mR 0 pages⟩,
    ⟨sumLens (pages.take (batchN mR 0 pages)), batchN mR 0 pages⟩,
    ?_, rfl, ?_, ?_, rfl, rfl, hNpos, hNle, ?_, ?_⟩
  · simpa [processBatches] using h
  · exact List.map_fst_zip _ _ (by omega)
  · rw [List.map_snd_zip _ _ (by omega), List.range_eq_range']
  · intro m hm j hj
    subst hm
    have hp := batchN_below m pages 0 j hj
    simpa using hp
  · intro m hm q hq
    subst hm
    have hsplit := sumLens_take_succ pages (batchN (some m) 0 pages - 1) q hq
    have hNeq : batchN (some m) 0 pages - 1 + 1 = batchN (some m) 0 pages := by omega
    rw [hNeq] at hsplit
    have hle : sumLens (pages.take (batchN (some m) 0 pages - 1)) ≤ m := by
      by_cases hN1 : batchN (some m) 0 pages = 1
      · rw [hN1]
        simp [sumLens]
      · have hp := batchN_below m pages 0 (batchN (some m) 0 pages - 2) (by omega)
        have he : batchN (some m) 0 pages - 2 + 1 = batchN (some m) 0 pages - 1 := by
          omega
        rw [he] at hp
        simp at hp
        omega
    show sumLens (pages.take (batchN (some m) 0 pages)) ≤ m + q.rows.length
    omega

/-- Claim C6: with an observation callback configured, `collectWith`
invokes it exactly once per fully appended page, with that page and the
cumulative row count, in order, and never for the page on which
truncation occurred (so the trace is one entry shorter than `pageCount`
exactly when the run truncates). -/
theorem claim6_onPage_callback (pages : List (PageResult T)) (mR : Option Nat)
    (cb : PageResult T → Nat → Except E Unit)
    (hcb : ∀ q n, cb q n = Except.ok ()) (hwf : wfPages pages = true) :
    ∃ o : CollectOut T E,
      collectWith mR (some cb) pages = some o ∧
      o.trace = appendedTrace mR 0 pages ∧
      ∀ r, o.result = Except.ok r →
        o.trace.length = if r.truncated then r.pageCount - 1 else r.pageCount := by
  have hcbok : cbOk (some cb) := by
    intro cb' q n hh
    cases hh
    exact hcb q n
  cases mR with
  | none =>
    have h := collectGo_none_char (some cb) hcbok pages hwf [] 0 [] 0
    refine ⟨⟨Except.ok ⟨natRows pages, (natRows pages).length,
        (naturalPages pages).length, false⟩,
      appendedTrace none 0 pages, (naturalPages pages).length⟩, ?_, rfl, ?_⟩
    · simpa [collectWith, traceFor] using h
    · intro r hr
      cases hr
      simpa using appendedTrace_length_none pages hwf 0
  | some m =>
    have h := collectGo_some_char m (some cb) hcbok pages hwf [] 0 [] 0 (by simp)
    refine ⟨⟨Except.ok ⟨(natRows pages).take m, ((natRows pages).take m).length,
        limitPages m 0 pages, limitTrunc m 0 pages⟩,
      appendedTrace (some m) 0 pages, limitPages m 0 pages⟩, ?_, rfl, ?_⟩
    · simpa [collectWith, traceFor] using h
    · intro r hr
      cases hr
      simpa using appendedTrace_length_some m pages hwf 0 (by omega)

/-- Claim C7: an error raised by the observation callback or the batch
processor propagates to the caller unchanged as the run's outcome (no
`CollectResult`/`BatchResult` is produced), the loop performs no fetch
beyond the page whose callback failed, and a callback that fails at its
first invocation aborts the run after a single fetch with a single
invocation (no retry of the callback). -/
theorem claim7_callback_error_propagation (mR : Option Nat)
    (pages : List (PageResult T)) :
    (∀ (cb : PageResult T → Nat → Except E Unit) (o : CollectOut T E) (e : E),
      collectWith mR (some cb) pages = some o → o.result = .error e →
      (∃ pre q n, o.trace = pre ++ [(q, n)] ∧ cb q n = Except.error e) ∧
      o.fetches = o.trace.length) ∧
    (∀ (bp : List T → Nat → Except E Unit) (b : BatchOut T E) (e : E),
      processBatches mR bp pages = some b → b.result = .error e →
      (∃ pre rs i, b.trace = pre ++ [(rs, i)] ∧ bp rs i = Except.error e) ∧
      b.fetches = b.trace.length) ∧
    (∀ (e : E) (p : PageResult T) (rest : List (PageResult T)), pages = p :: rest →
      (∀ m, mR = some m → p.rows.length < m) →
      collectWith mR (some fun _ _ => Except.error e) pages =
        some ⟨.error e, [(p, p.rows.length)], 1⟩) ∧
    (∀ (e : E) (p : PageResult T) (rest : List (PageResult T)), pages = p :: rest →
      processBatches mR (fun _ _ => Except.error e) pages =
        some ⟨.error e, [(p.rows, 0)], 1⟩) := by
  refine ⟨?_, ?_, ?_, ?_⟩
  · intro cb o e hrun hres
    exact collectGo_error_char mR cb pages [] 0 [] 0 o e rfl hrun hres
  · intro bp b e hrun hres
    exact processGo_error_char mR bp pages 0 0 [] 0 b e rfl hrun hres
  · intro e p rest hp hlim
    subst hp
    cases mR with
    | none => simp [collectWith, collectGo]
    | some m =>
      have hm := hlim m rfl
      simp only [collectWith, collectGo]
      split
      · rename_i hcc
        simp at hcc
        omega
      · simp
  · intro e p rest hp
    subst hp
    simp [processBatches, processGo]

/-- Claim C8: in all three consumption modes, an absent (or otherwise
falsy) continuation token on the most recent page always terminates the
loop: every page other than the last fetched one carried a truthy token,
whatever the row-limit configuration. -/
theorem claim8_token_absence_terminates (mR : Option Nat)
    (cb? : Option (PageResult T → Nat → Except E Unit))
    (bp : List T → Nat → Except E Unit) (pages : List (PageResult T)) :
    (∀ o : CollectOut T E, collectWith mR cb? pages = some o →
      ∀ j q, j + 1 < o.fetches → pages[j]? = some q →
        tokenContinues q.nextToken = true) ∧
    (∀ s : List T × Nat, stream mR pages = some s →
      ∀ j q, j + 1 < s.2 → pages[j]? = some q →
        tokenContinues q.nextToken = true) ∧
    (∀ b : BatchOut T E, processBatches mR bp pages = some b →
      ∀ j q, j + 1 < b.fetches → pages[j]? = some q →
        tokenContinues q.nextToken = true) := by
  refine ⟨?_, ?_, ?_⟩
  · intro o hrun j q hj hq
    exact (collectGo_fetch_inv mR cb? pages [] 0 [] 0 o hrun).2 j q (by omega) hq
  · intro s hrun j q hj hq
    exact (streamGo_fetch_inv mR pages 0 0 s hrun).2 j q (by omega) hq
  · intro b hrun j q hj hq
    exact (processGo_inv mR bp pages 0 0 [] 0 b hrun).2 j q (by omega) hq

/-- Claim C10: every run of `collect`, `collectWith`, `stream` and
`processBatches` performs at least one page fetch, a successful bulk
collection reports `pageCount ≥ 1`, and `processBatches` invokes the
batch processor at least once (also when `maxRows = 0`) and reports
`pageCount ≥ 1`. -/
theorem claim10_at_least_one_fetch (mR : Option Nat)
    (cb? : Option (PageResult T → Nat → Except E Unit))
    (bp : List T → Nat → Except E Unit) (pages : List (PageResult T)) :
    (∀ o : CollectOut T E, collectWith mR cb? pages = some o →
      1 ≤ o.fetches ∧ ∀ r, o.result = Except.ok r → 1 ≤ r.pageCount) ∧
    (∀ o : CollectOut T E, collect mR cb? pages = some o → 1 ≤ o.fetches) ∧
    (∀ s : List T × Nat, stream mR pages = some s → 1 ≤ s.2) ∧
    (∀ b : BatchOut T E, processBatches mR bp pages = some b →
      1 ≤ b.fetches ∧ b.trace ≠ [] ∧
      ∀ res, b.result = Except.ok res → 1 ≤ res.pageCount) := by
  refine ⟨?_, ?_, ?_, ?_⟩
  · intro o hrun
    refine ⟨?_, ?_⟩
    · have h := (collectGo_fetch_inv mR cb? pages [] 0 [] 0 o hrun).1
      omega
    · intro r hres
      have h := collectGo_pageCount_inv mR cb? pages [] 0 [] 0 o r hrun hres
      omega
  · intro o hrun
    have h := (collectGo_fetch_inv mR cb? pages [] 0 [] 0 o hrun).1
    omega
  · intro s hrun
    have h := (streamGo_fetch_inv mR pages 0 0 s hrun).1
    omega
  · intro b hrun
    obtain ⟨⟨h1, h2, h3⟩, _⟩ := processGo_inv mR bp pages 0 0 [] 0 b hrun
    refine ⟨by omega, ?_, fun res hres => by have := h3 res hres; omega⟩
    have : 0 < b.trace.length := by simpa using h2
    exact List.ne_nil_of_length_pos this

/-- Claim C9 (counterexample): with pages `([1], token)`, `([], token)`,
`([2], no token)` and `maxRows = 1`, the limit is reached exactly by the
last row of page 0, which carries a continuation token; `collectWith`
stops after 1 fetch, but `stream` performs 3 fetches — two beyond the
pages whose rows are yielded, not one as the claim states. -/
theorem claim9_counterexample :
    collectWith (T := Nat) (E := Unit) (some 1) none
        [⟨[1], some "t1"⟩, ⟨[], some "t2"⟩, ⟨[2], none⟩] =
      some ⟨Except.ok ⟨[1], 1, 1, true⟩, [], 1⟩ ∧
    stream (T := Nat) (some 1)
        [⟨[1], some "t1"⟩, ⟨[], some "t2"⟩, ⟨[2], none⟩] = some ([1], 3) ∧
    stream (T := Nat) (some 1)
        [⟨[1], some "t1"⟩, ⟨[], some "t2"⟩, ⟨[2], none⟩] ≠ some ([1], 1 + 1) := by
  refine ⟨rfl, rfl, by decide⟩

/-- Claim C9 (amended): when the configured limit `m` is reached exactly
by the last row of the `k`-th fetched page and that page carries a truthy
continuation token, `collectWith` stops truncated after those `k` pages
with exactly their rows, while `stream` yields the same rows but performs
at least one additional page fetch without yielding any row of the extra
pages; the additional fetch is exactly one whenever the next page has at
least one row. -/
theorem claim9_amended (pages : List (PageResult T)) (m k : Nat)
    (hwf : wfPages pages = true) (hk1 : 1 ≤ k) (hklt : k < pages.length)
    (htoks : ∀ j q, j < k → pages[j]? = some q → tokenContinues q.nextToken = true)
    (hbelow : ∀ j, 1 ≤ j → j < k → sumLens (pages.take j) < m)
    (hexact : sumLens (pages.take k) = m) :
    ∃ (r : CollectResult T) (ys : List T) (fc : Nat),
      collectWith (E := Unit) (some m) none pages = some ⟨Except.ok r, [], k⟩ ∧
      r.pageCount = k ∧ r.truncated = true ∧
      r.rows = ((pages.take k).map (fun p => p.rows)).flatten ∧
      stream (some m) pages = some (ys, fc) ∧
      ys = r.rows ∧ k + 1 ≤ fc ∧
      (∀ q, pages[k]? = some q → q.rows ≠ [] → fc = k + 1) := by
  obtain ⟨hLP, hLT, hSF⟩ := limit_exact_char m k pages 0 hk1 (by omega) htoks
    (fun j h1 h2 => by simpa using hbelow j h1 h2)
    (by simpa using hexact)
  have hsplit := natRows_split k pages (by omega) htoks
  have hlenA : (((pages.take k).map (fun p => p.rows)).flatten).length = m := by
    rw [flatten_sumLens]
    exact hexact
  have htakeA : (natRows pages).take m =
      ((pages.take k).map (fun p => p.rows)).flatten := by
    rw [hsplit, List.take_append_eq_append_take, hlenA, Nat.sub_self,
      List.take_zero, List.append_nil, List.take_of_length_le (le_of_eq hlenA)]
  have hcoll := collectGo_some_char (E := Unit) m none
    (fun cb p n hh => Option.noConfusion hh) pages hwf [] 0 [] 0 (by simp)
  refine ⟨⟨((pages.take k).map (fun p => p.rows)).flatten, m, k, true⟩,
    ((pages.take k).map (fun p => p.rows)).flatten,
    streamFetches m 0 pages, ?_, rfl, rfl, rfl, ?_, rfl, ?_, ?_⟩
  · simp only [List.nil_append, List.length_nil, Nat.sub_zero, Nat.zero_add, traceFor,
      List.append_nil] at hcoll
    rw [htakeA, hLP, hLT, hlenA] at hcoll
    simpa [collectWith] using hcoll
  · have hs := streamGo_some_char m pages hwf 0 0 (by omega)
    simp only [Nat.sub_zero, Nat.zero_add] at hs
    rw [htakeA] at hs
    simpa [stream] using hs
  · have hdrop := List.drop_eq_getElem_cons hklt
    have hpos : 1 ≤ streamFetches m m (pages.drop k) := by
      rw [hdrop]
      exact streamFetches_cons_pos m m _ _
    omega
  · intro q hq hqne
    have hq' : pages[k] = q := by
      have hsome := List.getElem?_eq_getElem hklt
      rw [hsome] at hq
      exact Option.some.inj hq
    have hdrop := List.drop_eq_getElem_cons hklt
    rw [hq'] at hdrop
    have hful : streamFetches m m (pages.drop k) = 1 := by
      rw [hdrop]
      exact streamFetches_full m q _ hqne
    omega

/-! ### Witnesses: each claim theorem applied at a concrete input -/

theorem claim1_witness :
    collectWith (T := Nat) (E := Unit) none none
        [⟨[1, 2], some "t1"⟩, ⟨[3], none⟩] =
      some ⟨Except.ok ⟨[1, 2, 3], 3, 2, false⟩, [], 2⟩ :=
  claim1_collect_unlimited [⟨[1, 2], some "t1"⟩, ⟨[3], none⟩] (by decide)

theorem claim2_witness :
    ∃ r : CollectResult Nat,
      collectWith (E := Unit) (some 4) none
          [⟨[1, 2, 3], some "t"⟩, ⟨[4, 5], none⟩] =
        some ⟨Except.ok r, [],
          limitPages 4 0 [⟨[1, 2, 3], some "t"⟩, ⟨[4, 5], none⟩]⟩ ∧
      r.rows = (natRows [⟨[1, 2, 3], some "t"⟩, ⟨[4, 5], none⟩]).take 4 ∧
      r.totalRows = r.rows.length ∧
      r.rows.length = min 4 (natRows [⟨[1, 2, 3], some "t"⟩, ⟨[4, 5], none⟩]).length ∧
      (r.truncated = true ↔ 4 ≤ (natRows [⟨[1, 2, 3], some "t"⟩, ⟨[4, 5], none⟩]).length) ∧
      r.pageCount = limitPages 4 0 [⟨[1, 2, 3], some "t"⟩, ⟨[4, 5], none⟩] :=
  claim2_collect_limited [⟨[1, 2, 3], some "t"⟩, ⟨[4, 5], none⟩] 4 (by decide)

theorem claim3_witness :
    fetchPageWithRetry 3 (fun i => if i < 2 then Except.error i else Except.ok 42) =
      (Except.ok 42, 3) ∧
    fetchPageWithRetry 1 (fun i => if i < 2 then Except.error i else Except.ok 42) =
      (Except.error 1, 2) :=
  ⟨(claim3_retry (fun i => if i < 2 then Except.error i else Except.ok 42) 2
      (fun i => i) 42 (fun j hj => by interval_cases j <;> rfl) rfl 3).1 (by omega),
   (claim3_retry (fun i => if i < 2 then Except.error i else Except.ok 42) 2
      (fun i => i) 42 (fun j hj => by interval_cases j <;> rfl) rfl 1).2 (by omega)⟩

theorem claim4_witness :
    ∃ (ys : List Nat) (fc : Nat) (o : CollectOut Nat Unit) (r : CollectResult Nat),
      stream (some 2) [⟨[1], some "t"⟩, ⟨[2, 3], none⟩] = some (ys, fc) ∧
      collectWith (some 2) none [⟨[1], some "t"⟩, ⟨[2, 3], none⟩] = some o ∧
      o.result = Except.ok r ∧
      ys = r.rows ∧
      ∀ m, (some 2 : Option Nat) = some m → ys.length ≤ m :=
  claim4_stream_matches_collect [⟨[1], some "t"⟩, ⟨[2, 3], none⟩] (some 2) (by decide)

theorem claim5_witness :
    ∃ (b : BatchOut Nat Unit) (res : BatchResult),
      processBatches (some 3) (fun _ _ => Except.ok ())
          [⟨[1, 2], some "t"⟩, ⟨[3, 4], none⟩] = some b ∧
      b.result = Except.ok res ∧
      b.trace.map Prod.fst =
        (([⟨[1, 2], some "t"⟩, ⟨[3, 4], none⟩] : List (PageResult Nat)).take
          res.pageCount).map (fun p => p.rows) ∧
      b.trace.map Prod.snd = List.range res.pageCount ∧
      res.totalRows =
        sumLens (([⟨[1, 2], some "t"⟩, ⟨[3, 4], none⟩] : List (PageResult Nat)).take
          res.pageCount) ∧
      b.fetches = res.pageCount ∧
      1 ≤ res.pageCount ∧
      res.pageCount ≤ ([⟨[1, 2], some "t"⟩, ⟨[3, 4], none⟩] : List (PageResult Nat)).length ∧
      (∀ m, (some 3 : Option Nat) = some m → ∀ j, j + 1 < res.pageCount →
        sumLens (([⟨[1, 2], some "t"⟩, ⟨[3, 4], none⟩] : List (PageResult Nat)).take
          (j + 1)) < m) ∧
      (∀ m, (some 3 : Option Nat) = some m →
        ∀ q, ([⟨[1, 2], some "t"⟩, ⟨[3, 4], none⟩] : List (PageResult Nat))[res.pageCount - 1]? =
            some q →
          res.totalRows ≤ m + q.rows.length) :=
  claim5_processBatches [⟨[1, 2], some "t"⟩, ⟨[3, 4], none⟩] (some 3)
    (fun _ _ => Except.ok ()) (fun _ _ => rfl) (by decide)

theorem claim6_witness :
    ∃ o : CollectOut Nat Unit,
      collectWith (some 2) (some fun _ _ => Except.ok ())
          [⟨[1], some "t"⟩, ⟨[2, 3], none⟩] = some o ∧
      o.trace = appendedTrace (some 2) 0 [⟨[1], some "t"⟩, ⟨[2, 3], none⟩] ∧
      ∀ r, o.result = Except.ok r →
        o.trace.length = if r.truncated then r.pageCount - 1 else r.pageCount :=
  claim6_onPage_callback [⟨[1], some "t"⟩, ⟨[2, 3], none⟩] (some 2)
    (fun _ _ => Except.ok ()) (fun _ _ => rfl) (by decide)

theorem claim7_witness :
    collectWith (some 5) (some fun _ _ => Except.error 7)
        [⟨[1], some "t"⟩, ⟨[2], none⟩] =
      some ⟨Except.error 7, [(⟨[1], some "t"⟩, 1)], 1⟩ :=
  (claim7_callback_error_propagation (E := Nat) (some 5)
      [⟨[1], some "t"⟩, ⟨[2], none⟩]).2.2.1 7 ⟨[1], some "t"⟩ [⟨[2], none⟩] rfl
    (fun m hm => by cases hm; decide)

theorem claim8_witness :
    tokenContinues (some "t") = true :=
  (claim8_token_absence_terminates (T := Nat) (E := Unit) none none
      (fun _ _ => Except.ok ()) [⟨[1], some "t"⟩, ⟨[2], none⟩]).1
    ⟨Except.ok ⟨[1, 2], 2, 2, false⟩, [], 2⟩ rfl 0 ⟨[1], some "t"⟩ (by decide) rfl

theorem claim9_witness :
    ∃ (r : CollectResult Nat) (ys : List Nat) (fc : Nat),
      collectWith (E := Unit) (some 1) none [⟨[1], some "t"⟩, ⟨[2], none⟩] =
        some ⟨Except.ok r, [], 1⟩ ∧
      r.pageCount = 1 ∧ r.truncated = true ∧
      r.rows = ((([⟨[1], some "t"⟩, ⟨[2], none⟩] : List (PageResult Nat)).take 1).map
        (fun p => p.rows)).flatten ∧
      stream (some 1) [⟨[1], some "t"⟩, ⟨[2], none⟩] = some (ys, fc) ∧
      ys = r.rows ∧ 1 + 1 ≤ fc ∧
      (∀ q, ([⟨[1], some "t"⟩, ⟨[2], none⟩] : List (PageResult Nat))[1]? = some q →
        q.rows ≠ [] → fc = 1 + 1) :=
  claim9_amended [⟨[1], some "t"⟩, ⟨[2], none⟩] 1 1 (by decide) (by decide)
    (by decide)
    (fun j q hj hq => by
      have hj0 : j = 0 := by omega
      subst hj0
      simp only [List.getElem?_cons_zero, Option.some.injEq] at hq
      subst hq
      decide)
    (fun j h1 h2 => by omega)
    (by decide)

theorem claim10_witness :
    1 ≤ (⟨Except.ok ⟨0, 1⟩, [([], 0)], 1⟩ : BatchOut Nat Unit).fetches ∧
    (⟨Except.ok ⟨0, 1⟩, [([], 0)], 1⟩ : BatchOut Nat Unit).trace ≠ [] ∧
    ∀ res, (⟨Except.ok ⟨0, 1⟩, [([], 0)], 1⟩ : BatchOut Nat Unit).result =
      Except.ok res → 1 ≤ res.pageCount :=
  (claim10_at_least_one_fetch (some 0) none (fun _ _ => Except.ok ())
      [⟨[], none⟩]).2.2.2 ⟨Except.ok ⟨0, 1⟩, [([], 0)], 1⟩ rfl

end Collector
